import Mathlib

/-!
Verification of the continuous-time RNN tutorial (JohnSerences/ctRNN_tutorial,
advanced notebook).  The notebook's numerical core (classes `ctRNN` / `h_layer`
in `ct_rnn.py` / `h_layer.py` and `ctTASKS` in `tasks.py`) is imported by the
notebook but its source is not part of the checked tree, so those definitions
are modelled from the specification; the training loop is embedded directly
from the notebook cell that contains it.  Numbers are modelled exactly over a
linear ordered field (instantiated at `ℚ` for executable witnesses and at `ℝ`
where the sigmoid is needed).
-/

set_option maxHeartbeats 1000000

namespace CtRnnTutorial

/-- The closed enumeration of activation functions of the model
(`act_func` is restricted to relu or sigmoid). -/
inductive ActFunc
  | sigmoid
  | relu
  deriving DecidableEq

/-- The closed enumeration of hidden-weight distributions (`w_dist`,
gauss or gamma). -/
inductive WDist
  | gauss
  | gamma
  deriving DecidableEq

/-- The closed set of task types appearing in the notebook
(`go-nogo`, `dmts`, `mante`). -/
inductive TaskType
  | go_nogo
  | dmts
  | mante
  deriving DecidableEq

variable {K : Type} [LinearOrderedField K]

/-- Modelled from the spec: the parameter tensors of the `ctRNN` layer
(`ct_rnn.py` is not in the checked tree).  `dt` and `tau` are the integration
timestep and time constant; the weight matrices and biases are as in §3 of the
spec.  The input bias is not part of the spec's update rule and is omitted. -/
structure ctRNNParams (K : Type) (h_size inp_size out_size : ℕ) where
  dt : K
  tau : K
  W_in : Fin h_size → Fin inp_size → K
  W_hid : Fin h_size → Fin h_size → K
  W_out : Fin out_size → Fin h_size → K
  bias_hid : Fin h_size → K
  bias_out : Fin out_size → K

/-- Rectified linear activation. -/
def relu (x : K) : K := max x 0

/-- Logistic sigmoid activation over the reals. -/
noncomputable def sigmoid (x : ℝ) : ℝ := 1 / (1 + Real.exp (-x))

/-- Semantics of the activation-function enumeration over the reals. -/
noncomputable def applyAct : ActFunc → ℝ → ℝ
  | ActFunc.sigmoid => sigmoid
  | ActFunc.relu => relu

/-- Matrix-vector product. -/
def mvec {m n : ℕ} (W : Fin m → Fin n → K) (v : Fin n → K) : Fin m → K :=
  fun i => ∑ j, W i j * v j

/-- Modelled from the spec: pre-activation state trajectory of the forward
integration (`ct_rnn.py` is not in the checked tree).  `x 0 = 0` and
`x[t] = x[t-1] + (dt/tau) * (-x[t-1] + W_hid · r[t-1] + W_in · u[t]
+ bias_hid + noise_pre)` with `r[t] = f (x[t]) + noise_post`.  The noise
samples are passed in as explicit sequences `nPre`, `nPost`. -/
def xTraj {h inp out : ℕ} (p : ctRNNParams K h inp out) (f : K → K)
    (u : ℕ → Fin inp → K) (nPre nPost : ℕ → Fin h → K) : ℕ → Fin h → K
  | 0 => fun _ => 0
  | t + 1 => fun i =>
      xTraj p f u nPre nPost t i + (p.dt / p.tau) *
        (-(xTraj p f u nPre nPost t i)
          + mvec p.W_hid (fun j => f (xTraj p f u nPre nPost t j) + nPost t j) i
          + mvec p.W_in (u (t + 1)) i
          + p.bias_hid i + nPre (t + 1) i)

/-- Modelled from the spec: post-activation rate trajectory,
`r[t] = f (x[t]) + noise_post`. -/
def rTraj {h inp out : ℕ} (p : ctRNNParams K h inp out) (f : K → K)
    (u : ℕ → Fin inp → K) (nPre nPost : ℕ → Fin h → K) (t : ℕ) : Fin h → K :=
  fun i => f (xTraj p f u nPre nPost t i) + nPost t i

/-- Modelled from the spec: output trajectory,
`y[t] = W_out · r[t] + bias_out`. -/
def yTraj {h inp out : ℕ} (p : ctRNNParams K h inp out) (f : K → K)
    (u : ℕ → Fin inp → K) (nPre nPost : ℕ → Fin h → K) (t : ℕ) : Fin out → K :=
  fun o => mvec p.W_out (rTraj p f u nPre nPost t) o + p.bias_out o

/-- Claim C1: for every timestep `t ≥ 1` the pre-activation state satisfies the
discrete leaky-integrator rule
`x[t] = x[t-1] + (dt/tau) * (-x[t-1] + W_hid · r[t-1] + W_in · u[t] + bias_hid
+ noise_pre)`, the post-activation rate is `r[t] = f (x[t]) + noise_post` for
the configured activation `f`, the output is `y[t] = W_out · r[t] + bias_out`,
and the initial state `x[0]` is zero. -/
theorem forward_euler_rule {h inp out : ℕ} (p : ctRNNParams K h inp out)
    (f : K → K) (u : ℕ → Fin inp → K) (nPre nPost : ℕ → Fin h → K)
    (t : ℕ) (ht : 1 ≤ t) :
    (∀ i, xTraj p f u nPre nPost t i =
        xTraj p f u nPre nPost (t - 1) i + (p.dt / p.tau) *
          (-(xTraj p f u nPre nPost (t - 1) i)
            + mvec p.W_hid (rTraj p f u nPre nPost (t - 1)) i
            + mvec p.W_in (u t) i + p.bias_hid i + nPre t i)) ∧
    (∀ i, rTraj p f u nPre nPost t i = f (xTraj p f u nPre nPost t i) + nPost t i) ∧
    (∀ o, yTraj p f u nPre nPost t o =
        mvec p.W_out (rTraj p f u nPre nPost t) o + p.bias_out o) ∧
    (∀ i, xTraj p f u nPre nPost 0 i = 0) := by
  obtain ⟨s, rfl⟩ : ∃ s, t = s + 1 := ⟨t - 1, (Nat.succ_pred_eq_of_pos ht).symm⟩
  refine ⟨fun i => ?_, fun i => rfl, fun o => rfl, fun i => rfl⟩
  simp only [Nat.add_sub_cancel]
  rfl

/-- An all-zero sequence of input or noise vectors (used in witnesses). -/
def zeroSeq (n : ℕ) : ℕ → Fin n → ℚ := fun _ _ => 0

/-- A tiny concrete 1×1×1 configuration over `ℚ` (used in witnesses). -/
def cfg1 : ctRNNParams ℚ 1 1 1 :=
  ⟨1, 2, fun _ _ => 1, fun _ _ => 0, fun _ _ => 1, fun _ => 0, fun _ => 0⟩

/-- Witness for claim C1 at a concrete configuration and `t = 1`. -/
theorem forward_euler_rule_witness :
    xTraj cfg1 relu (zeroSeq 1) (zeroSeq 1) (zeroSeq 1) 1 0 =
      xTraj cfg1 relu (zeroSeq 1) (zeroSeq 1) (zeroSeq 1) 0 0 + (cfg1.dt / cfg1.tau) *
        (-(xTraj cfg1 relu (zeroSeq 1) (zeroSeq 1) (zeroSeq 1) 0 0)
          + mvec cfg1.W_hid (rTraj cfg1 relu (zeroSeq 1) (zeroSeq 1) (zeroSeq 1) 0) 0
          + mvec cfg1.W_in (zeroSeq 1 1) 0 + cfg1.bias_hid 0 + zeroSeq 1 1 0) :=
  (forward_euler_rule cfg1 relu (zeroSeq 1) (zeroSeq 1) (zeroSeq 1) 1 (by decide)).1 0

/-- Modelled from the spec: the effective hidden recurrent weight matrix
(`h_layer.py` is not in the checked tree).  From raw entries `w` (the drawn and
gain-scaled, later gradient-trained, values): entries are masked by the fixed
0/1 connectivity mask, self-connections are zeroed, and when Dale's principle
is enabled each unit's outgoing row is forced to a single fixed sign by taking
the absolute value and multiplying by the per-unit sign. -/
def build_W_hid {n : ℕ} (apply_dale : Bool) (sgn : Fin n → K)
    (mask : Fin n → Fin n → Bool) (w : Fin n → Fin n → K) : Fin n → Fin n → K :=
  fun i j =>
    if i = j then 0
    else
      let wm := if mask i j then w i j else 0
      if apply_dale then |wm| * sgn i else wm

/-- Gradient-descent training of the raw hidden weights: `k` steps of
`w ← w - lr * g`, for an arbitrary sequence `g` of gradients.  The mask and
sign are not part of the trained state; the effective matrix is rebuilt from
the raw weights by `build_W_hid`. -/
def trainRaw {n : ℕ} (w0 : Fin n → Fin n → K) (lr : K)
    (g : ℕ → Fin n → Fin n → K) : ℕ → Fin n → Fin n → K
  | 0 => w0
  | k + 1 => fun i j => trainRaw w0 lr g k i j - lr * g k i j

/-- A non-zero entry of a Dale-constrained row is positive exactly when the
unit's fixed sign is `+1`. -/
theorem build_W_hid_pos_iff {n : ℕ} (sgn : Fin n → K)
    (hs : ∀ i, sgn i = 1 ∨ sgn i = -1) (mask : Fin n → Fin n → Bool)
    (w : Fin n → Fin n → K) (i j : Fin n)
    (hne : build_W_hid true sgn mask w i j ≠ 0) :
    (0 < build_W_hid true sgn mask w i j ↔ sgn i = 1) := by
  by_cases hij : i = j
  · exact absurd (by simp [build_W_hid, hij]) hne
  · have hbuild : build_W_hid true sgn mask w i j =
        |if mask i j then w i j else 0| * sgn i := by
      simp [build_W_hid, hij]
    have habs : |if mask i j then w i j else (0 : K)| ≠ 0 := by
      intro h0
      exact hne (by rw [hbuild, h0, zero_mul])
    have hpos : 0 < |if mask i j then w i j else (0 : K)| :=
      lt_of_le_of_ne (abs_nonneg _) (Ne.symm habs)
    rcases hs i with h1 | h1
    · rw [hbuild, h1, mul_one]
      exact iff_of_true hpos rfl
    · rw [hbuild, h1, mul_neg_one]
      refine iff_of_false (not_lt.mpr (neg_nonpos_of_nonneg (abs_nonneg _))) ?_
      intro h2
      norm_num at h2

/-- Claim C2: with Dale's principle enabled, every non-zero entry of row `i` of
the hidden recurrent weight matrix has the same sign, immediately after
construction (`k = 0`) and after any numbers `k`, `k'` of gradient-descent
training steps; in particular a unit's outgoing sign never flips during
training. -/
theorem dale_sign_invariant {n : ℕ} (sgn : Fin n → K)
    (hs : ∀ i, sgn i = 1 ∨ sgn i = -1) (mask : Fin n → Fin n → Bool)
    (w0 : Fin n → Fin n → K) (lr : K) (g : ℕ → Fin n → Fin n → K)
    (k k' : ℕ) (i j j' : Fin n)
    (hj : build_W_hid true sgn mask (trainRaw w0 lr g k) i j ≠ 0)
    (hj' : build_W_hid true sgn mask (trainRaw w0 lr g k') i j' ≠ 0) :
    (0 < build_W_hid true sgn mask (trainRaw w0 lr g k) i j ↔
      0 < build_W_hid true sgn mask (trainRaw w0 lr g k') i j') :=
  (build_W_hid_pos_iff sgn hs mask _ i j hj).trans
    (build_W_hid_pos_iff sgn hs mask _ i j' hj').symm

/-- A concrete sign vector on two units (used in witnesses). -/
def sgn2 : Fin 2 → ℚ := fun i => if i = 0 then 1 else -1

/-- Witness for claim C2: on a concrete 2-unit network, the (0,1) entry keeps
its sign between construction and one training step. -/
theorem dale_sign_invariant_witness :
    (0 < build_W_hid true sgn2 (fun _ _ => true)
        (trainRaw (fun _ _ => 1) 1 (fun _ _ _ => -1) 0) 0 1 ↔
      0 < build_W_hid true sgn2 (fun _ _ => true)
        (trainRaw (fun _ _ => 1) 1 (fun _ _ _ => -1) 1) 0 1) :=
  dale_sign_invariant sgn2 (by intro i; fin_cases i <;> simp [sgn2])
    (fun _ _ => true) (fun _ _ => 1) 1 (fun _ _ _ => -1) 0 1 0 1 1
    (by norm_num [build_W_hid, trainRaw, sgn2])
    (by norm_num [build_W_hid, trainRaw, sgn2])

/-- Claim C3: entries of the hidden recurrent weight matrix that the
connectivity mask zeroes (and every diagonal self-connection) are exactly zero
after any number `k` of gradient-update training steps, including at
construction (`k = 0`); the mask itself is a fixed parameter never touched by
`trainRaw`. -/
theorem mask_zero_invariant {n : ℕ} (apply_dale : Bool) (sgn : Fin n → K)
    (mask : Fin n → Fin n → Bool) (w0 : Fin n → Fin n → K) (lr : K)
    (g : ℕ → Fin n → Fin n → K) (k : ℕ) (i j : Fin n)
    (hm : mask i j = false ∨ i = j) :
    build_W_hid apply_dale sgn mask (trainRaw w0 lr g k) i j = 0 := by
  unfold build_W_hid
  rcases hm with hm | hm
  · by_cases hij : i = j <;> simp [hij, hm]
  · simp [hm]

/-- Witness for claim C3: a concrete masked-out entry is zero after two
training steps. -/
theorem mask_zero_invariant_witness :
    build_W_hid true sgn2 (fun _ _ => false)
      (trainRaw (fun _ _ => 1) 1 (fun _ _ _ => 1) 2) 0 1 = 0 :=
  mask_zero_invariant true sgn2 (fun _ _ => false) (fun _ _ => 1) 1
    (fun _ _ _ => 1) 2 0 1 (Or.inl rfl)

/-- A concrete 1×1×1 sigmoid configuration over `ℝ` with zero biases and
output weight 2: zero input from zero state still yields output 1/2·2 = 1. -/
def cfgSig : ctRNNParams ℝ 1 1 1 :=
  ⟨1, 20, fun _ _ => 1, fun _ _ => 0, fun _ _ => 2, fun _ => 0, fun _ => 0⟩

/-- A concrete 1×1×1 relu configuration over `ℚ` with output bias 5. -/
def cfgRelu5 : ctRNNParams ℚ 1 1 1 :=
  ⟨1, 20, fun _ _ => 1, fun _ _ => 0, fun _ _ => 2, fun _ => 0, fun _ => 5⟩

/-- Counterexample to claim C5 as stated: with zero noise and all-zero input
from the zero initial state, a valid sigmoid configuration with zero biases
outputs 1 at timestep 1 (since `r = sigmoid 0 = 1/2`), and a valid relu
configuration with output bias 5 outputs 5; neither trajectory is all-zero. -/
theorem zero_input_nonzero_output_counterexample :
    yTraj cfgSig (applyAct ActFunc.sigmoid)
        (fun _ _ => 0) (fun _ _ => 0) (fun _ _ => 0) 1 0 ≠ 0 ∧
    yTraj cfgRelu5 relu (fun _ _ => 0) (fun _ _ => 0) (fun _ _ => 0) 1 0 ≠ 0 := by
  constructor
  · have hx : xTraj cfgSig (applyAct ActFunc.sigmoid)
        (fun _ _ => 0) (fun _ _ => 0) (fun _ _ => 0) 1 0 = 0 := by
      simp [xTraj, mvec, cfgSig, Fin.sum_univ_one]
    have hy : yTraj cfgSig (applyAct ActFunc.sigmoid)
        (fun _ _ => 0) (fun _ _ => 0) (fun _ _ => 0) 1 0 = 1 := by
      simp only [yTraj, rTraj, mvec, Fin.sum_univ_one]
      rw [hx]
      simp [cfgSig, applyAct, sigmoid, Real.exp_zero]
      norm_num
    rw [hy]
    norm_num
  · have hx : xTraj cfgRelu5 relu
        (fun _ _ => 0) (fun _ _ => 0) (fun _ _ => 0) 1 0 = 0 := by
      simp [xTraj, mvec, cfgRelu5, Fin.sum_univ_one]
    have hy : yTraj cfgRelu5 relu
        (fun _ _ => 0) (fun _ _ => 0) (fun _ _ => 0) 1 0 = 5 := by
      simp only [yTraj, rTraj, mvec, Fin.sum_univ_one]
      rw [hx]
      simp [cfgRelu5, relu]
    rw [hy]
    norm_num

/-- Claim C5 (amended): for every configuration with relu activation, both
noise sequences zero, zero hidden bias and zero output bias, a forward pass on
an all-zero input sequence from the zero initial state keeps the state at zero
and produces an all-zero output trajectory at every timestep. -/
theorem relu_zero_input_zero_output {h inp out : ℕ} (p : ctRNNParams K h inp out)
    (hbh : ∀ i, p.bias_hid i = 0) (hbo : ∀ o, p.bias_out o = 0)
    (u : ℕ → Fin inp → K) (hu : ∀ t i, u t i = 0) :
    (∀ t i, xTraj p relu u (fun _ _ => 0) (fun _ _ => 0) t i = 0) ∧
    (∀ t o, yTraj p relu u (fun _ _ => 0) (fun _ _ => 0) t o = 0) := by
  have hx : ∀ t i, xTraj p relu u (fun _ _ => 0) (fun _ _ => 0) t i = 0 := by
    intro t
    induction t with
    | zero => intro i; rfl
    | succ t ih =>
      intro i
      show xTraj p relu u (fun _ _ => 0) (fun _ _ => 0) (t + 1) i = 0
      simp [xTraj, mvec, ih, hu, hbh, relu]
  refine ⟨hx, fun t o => ?_⟩
  simp [yTraj, rTraj, mvec, hx, hbo, relu]

/-- Witness for amended claim C5: the concrete configuration `cfg1` with relu
activation, zero input and zero noise outputs zero at timestep 1. -/
theorem relu_zero_input_zero_output_witness :
    yTraj cfg1 relu (zeroSeq 1) (fun _ _ => 0) (fun _ _ => 0) 1 0 = 0 :=
  (relu_zero_input_zero_output cfg1 (fun _ => rfl) (fun _ => rfl) (zeroSeq 1)
    (fun _ _ => rfl)).2 1 0

/-- View a trial given as a list of timestep rows as a time-indexed input
function (missing entries read as 0). -/
def toFun2 {inp : ℕ} (trial : List (List K)) : ℕ → Fin inp → K :=
  fun t i => (trial.getD t []).getD i.val 0

/-- Modelled from the spec: the batch forward pass (`ct_rnn.py` is not in the
checked tree).  For each trial of the input batch (batch × time × input-dim)
it integrates the network for as many timesteps as the trial has and emits the
output vector `y[t]` for `t = 1, …, time`. -/
def ctRNN_forward {h inp out : ℕ} (p : ctRNNParams K h inp out) (f : K → K)
    (nPre nPost : ℕ → Fin h → K) (inputs : List (List (List K))) :
    List (List (List K)) :=
  inputs.map fun trial =>
    (List.range trial.length).map fun t =>
      List.ofFn fun o : Fin out => yTraj p f (toFun2 trial) nPre nPost (t + 1) o

/-- Claim C4: for every configuration and every input batch of shape
(batch, time, input-dim), the forward pass returns an output of shape exactly
(batch, time, output-dim); each entry is the well-defined field value
`y[t+1]` of the integration (in the exact-arithmetic model no entry can be
NaN: every entry is a well-defined element of the field). -/
theorem ctRNN_forward_shape {h inp out : ℕ} (p : ctRNNParams K h inp out)
    (f : K → K) (nPre nPost : ℕ → Fin h → K) (inputs : List (List (List K))) :
    (ctRNN_forward p f nPre nPost inputs).length = inputs.length ∧
    ∀ b, b < inputs.length →
      ((ctRNN_forward p f nPre nPost inputs).getD b []).length =
        (inputs.getD b []).length ∧
      ∀ t, t < (inputs.getD b []).length →
        (((ctRNN_forward p f nPre nPost inputs).getD b []).getD t []).length = out ∧
        ∀ o : Fin out,
          (((ctRNN_forward p f nPre nPost inputs).getD b []).getD t []).getD o.val 0 =
            yTraj p f (toFun2 (inputs.getD b [])) nPre nPost (t + 1) o := by
  refine ⟨by simp [ctRNN_forward], fun b hb => ?_⟩
  have hb' : b < (ctRNN_forward p f nPre nPost inputs).length := by
    simpa [ctRNN_forward] using hb
  have hrow : (ctRNN_forward p f nPre nPost inputs).getD b [] =
      (List.range (inputs.getD b []).length).map fun t =>
        List.ofFn fun o : Fin out =>
          yTraj p f (toFun2 (inputs.getD b [])) nPre nPost (t + 1) o := by
    rw [List.getD_eq_getElem _ _ hb', List.getD_eq_getElem _ _ hb]
    simp [ctRNN_forward]
  refine ⟨by rw [hrow]; simp, fun t ht => ?_⟩
  have hcell : ((ctRNN_forward p f nPre nPost inputs).getD b []).getD t [] =
      List.ofFn fun o : Fin out =>
        yTraj p f (toFun2 (inputs.getD b [])) nPre nPost (t + 1) o := by
    have ht' : t < ((List.range (inputs.getD b []).length).map fun t =>
        List.ofFn fun o : Fin out =>
          yTraj p f (toFun2 (inputs.getD b [])) nPre nPost (t + 1) o).length := by
      simpa using ht
    rw [hrow, List.getD_eq_getElem _ _ ht']
    simp
  refine ⟨by rw [hcell]; simp, fun o => ?_⟩
  have ho : o.val < (((ctRNN_forward p f nPre nPost inputs).getD b []).getD t []).length := by
    rw [hcell]
    simp
  rw [List.getD_eq_getElem _ _ ho]
  simp only [hcell]
  simp

/-- Witness for claim C4 at a concrete 1-trial, 2-timestep batch: the output
batch has 1 trial of 2 timesteps of 1 value each. -/
theorem ctRNN_forward_shape_witness :
    ((ctRNN_forward cfg1 relu (zeroSeq 1) (zeroSeq 1) [[[1], [0]]]).getD 0 []).length = 2 :=
  ((ctRNN_forward_shape cfg1 relu (zeroSeq 1) (zeroSeq 1) [[[1], [0]]]).2 0
    (by decide)).1

/-- Modelled from the spec: resolution of the configured activation-function
name (`ct_rnn.py` is not in the checked tree).  The choice is a closed
enumeration {sigmoid, relu}; an unrecognized name must fail fast with an
explicit configuration error rather than defaulting silently. -/
def parse_act_func (s : String) : Except String ActFunc :=
  if s = "sigmoid" then Except.ok ActFunc.sigmoid
  else if s = "relu" then Except.ok ActFunc.relu
  else Except.error ("invalid act_func: " ++ s)

/-- Modelled from the spec: resolution of the configured hidden-weight
distribution name, a closed enumeration {gauss, gamma}; an unrecognized name
fails with an explicit configuration error. -/
def parse_w_dist (s : String) : Except String WDist :=
  if s = "gauss" then Except.ok WDist.gauss
  else if s = "gamma" then Except.ok WDist.gamma
  else Except.error ("invalid w_dist: " ++ s)

/-- Claim C6: a configuration whose activation-function name is outside
{sigmoid, relu}, or whose weight-distribution name is outside {gauss, gamma},
is rejected with an explicit configuration error, and a successful parse only
ever returns the enumeration value named by the string — no default is
silently substituted. -/
theorem config_rejects_unknown_names (s : String) :
    (s ≠ "sigmoid" → s ≠ "relu" →
      parse_act_func s = Except.error ("invalid act_func: " ++ s)) ∧
    (∀ a, parse_act_func s = Except.ok a →
      (s = "sigmoid" ∧ a = ActFunc.sigmoid) ∨ (s = "relu" ∧ a = ActFunc.relu)) ∧
    (s ≠ "gauss" → s ≠ "gamma" →
      parse_w_dist s = Except.error ("invalid w_dist: " ++ s)) ∧
    (∀ d, parse_w_dist s = Except.ok d →
      (s = "gauss" ∧ d = WDist.gauss) ∨ (s = "gamma" ∧ d = WDist.gamma)) := by
  refine ⟨fun h1 h2 => ?_, fun a ha => ?_, fun h1 h2 => ?_, fun d hd => ?_⟩
  · simp [parse_act_func, h1, h2]
  · unfold parse_act_func at ha
    by_cases hs : s = "sigmoid"
    · simp only [hs, if_true] at ha
      exact Or.inl ⟨hs, (Except.ok.injEq _ _ ▸ ha).symm⟩
    · by_cases hr : s = "relu"
      · simp only [hs, if_false, hr, if_true] at ha
        exact Or.inr ⟨hr, (Except.ok.injEq _ _ ▸ ha).symm⟩
      · simp [hs, hr] at ha
  · simp [parse_w_dist, h1, h2]
  · unfold parse_w_dist at hd
    by_cases hs : s = "gauss"
    · simp only [hs, if_true] at hd
      exact Or.inl ⟨hs, (Except.ok.injEq _ _ ▸ hd).symm⟩
    · by_cases hr : s = "gamma"
      · simp only [hs, if_false, hr, if_true] at hd
        exact Or.inr ⟨hr, (Except.ok.injEq _ _ ▸ hd).symm⟩
      · simp [hs, hr] at hd

/-- Witness for claim C6: the unknown name "tanh" is rejected with an explicit
error. -/
theorem config_rejects_unknown_names_witness :
    parse_act_func "tanh" = Except.error ("invalid act_func: " ++ "tanh") :=
  (config_rejects_unknown_names "tanh").1 (by decide) (by decide)

/-- Modelled from the spec: threshold classification of a trial's output
within the response window (`tasks.py` is not in the checked tree).  An output
is classified "go" (`some true`) when it strictly exceeds the upper threshold,
"no-go" (`some false`) when it is strictly below the lower threshold, and
unclassified (`none`, never matching either label) otherwise. -/
def classify_output (hi lo o : K) : Option Bool :=
  if hi < o then some true
  else if o < lo then some false
  else none

/-- Modelled from the spec: number of trials whose classification matches the
trial's true label (`true` = go). -/
def countCorrect (hi lo : K) (outs : List K) (labels : List Bool) : ℕ :=
  (outs.zip labels).countP fun pr => decide (classify_output hi lo pr.1 = some pr.2)

/-- Modelled from the spec: accuracy of a batch — the fraction of trials whose
classification matches the true label, averaged over the batch. -/
def compute_acc (hi lo : K) (outs : List K) (labels : List Bool) : K :=
  (countCorrect hi lo outs labels : K) / (labels.length : K)

/-- Claim C7: the accuracy computation classifies an output as "go" exactly
when it strictly exceeds the upper threshold and as "no-go" exactly when it is
strictly below the lower threshold (the value exactly at the upper threshold
is classified as neither, per the strict tie-break), and the batch accuracy is
the matching-trial count divided by the batch size, hence in [0, 1]. -/
theorem compute_acc_spec (hi lo o : K) (hth : lo ≤ hi)
    (outs : List K) (labels : List Bool) (hpos : 0 < labels.length) :
    (classify_output hi lo o = some true ↔ hi < o) ∧
    (classify_output hi lo o = some false ↔ o < lo) ∧
    classify_output hi lo hi = none ∧
    compute_acc hi lo outs labels * (labels.length : K) =
      (countCorrect hi lo outs labels : K) ∧
    0 ≤ compute_acc hi lo outs labels ∧ compute_acc hi lo outs labels ≤ 1 := by
  have hlpos : (0 : K) < (labels.length : K) := by exact_mod_cast hpos
  refine ⟨?_, ?_, ?_, ?_, ?_, ?_⟩
  · unfold classify_output
    by_cases hgo : hi < o
    · simp [hgo]
    · simp only [hgo, if_false]
      by_cases hng : o < lo
      · simp [hng, hgo]
      · simp [hng, hgo]
  · unfold classify_output
    by_cases hgo : hi < o
    · refine iff_of_false (by simp [hgo]) ?_
      intro hng
      exact absurd (lt_trans hng (lt_of_le_of_lt hth hgo)) (lt_irrefl o)
    · simp only [hgo, if_false]
      by_cases hng : o < lo
      · simp [hng]
      · simp [hng]
  · have h1 : ¬hi < hi := lt_irrefl hi
    have h2 : ¬hi < lo := not_lt.mpr hth
    simp [classify_output, h1, h2]
  · unfold compute_acc
    field_simp
  · exact div_nonneg (Nat.cast_nonneg _) (Nat.cast_nonneg _)
  · unfold compute_acc
    rw [div_le_one hlpos]
    have hcount : countCorrect hi lo outs labels ≤ labels.length := by
      calc countCorrect hi lo outs labels ≤ (outs.zip labels).length :=
            List.countP_le_length _
        _ = min outs.length labels.length := List.length_zip _ _
        _ ≤ labels.length := min_le_right _ _
    exact_mod_cast hcount

/-- Witness for claim C7: on a batch of two trials with thresholds 0.8 / 0.2,
an output of 0.9 labelled go and an output of 0.5 labelled go give accuracy
1/2, which is within the proved bounds. -/
theorem compute_acc_spec_witness :
    compute_acc (4/5 : ℚ) (1/5) [(9/10 : ℚ), 1/2] [true, true] ≤ 1 :=
  (compute_acc_spec (4/5 : ℚ) (1/5) (9/10) (by norm_num) [(9/10 : ℚ), 1/2]
    [true, true] (by decide)).2.2.2.2.2

/-- Modelled from the spec: go/no-go target generation (`tasks.py` is not in
the checked tree).  The target sequence of a trial is 1 at every timestep of
the post-stimulus response window `[stim_on + stim_dur, T)` when the trial is
a go trial and 0 otherwise (and 0 outside the window). -/
def target_go_nogo (T stim_on stim_dur : ℕ) (go : Bool) : List K :=
  (List.range T).map fun t =>
    if stim_on + stim_dur ≤ t ∧ go = true then (1 : K) else 0

/-- Claim C8: at every timestep of the post-stimulus response window, the
go/no-go target equals 1 when the trial's type label is go and 0 when it is
no-go. -/
theorem target_go_nogo_window (T stim_on stim_dur : ℕ) (go : Bool) (t : ℕ)
    (hwin : stim_on + stim_dur ≤ t) (hT : t < T) :
    (target_go_nogo (K := K) T stim_on stim_dur go).getD t 0 =
      if go then 1 else 0 := by
  have ht' : t < (target_go_nogo (K := K) T stim_on stim_dur go).length := by
    simp [target_go_nogo, hT]
  rw [List.getD_eq_getElem _ _ ht']
  simp only [target_go_nogo, List.getElem_map, List.getElem_range]
  cases go with
  | true => simp [hwin]
  | false => simp

/-- Witness for claim C8 on a concrete go trial with `T = 4`, window starting
at timestep 2: the target at timestep 3 is 1. -/
theorem target_go_nogo_window_witness :
    (target_go_nogo (K := ℚ) 4 1 1 true).getD 3 0 = if true then 1 else 0 :=
  target_go_nogo_window 4 1 1 true 3 (by decide) (by decide)

/-- Whether the notebook's training loop accumulates accuracy for this task
(`(task_type == 'go-nogo') | (task_type == 'dmts')` in the training cell). -/
def useAcc : TaskType → Bool
  | TaskType.go_nogo => true
  | TaskType.dmts => true
  | TaskType.mante => false

/-- One iteration's update of `running_acc` in the notebook's training cell:
`running_acc += task.compute_acc(...)` for go-nogo and dmts, otherwise
`running_acc = 0`. -/
def accUpd (task : TaskType) (ra a : K) : K :=
  if useAcc task then ra + a else 0

/-- The notebook's training loop, embedded from the training cell.  The
per-iteration batch loss and accuracy are abstracted as the sequences `loss`
and `acc` (they come from the external autodiff engine).  The state is
(iterations remaining, iterations done, `running_loss`, `running_acc`); every
`step = loss_update_step` iterations the running averages are compared against
`lc = loss_crit` and `ac = acc_crit` and the loop breaks, or the running sums
reset to zero.  Returns the number of gradient steps executed. -/
def trainAux (loss acc : ℕ → K) (step : ℕ) (lc ac : K) (task : TaskType) :
    ℕ → ℕ → K → K → ℕ
  | 0, i, _, _ => i
  | n + 1, i, rl, ra =>
    if i % step = step - 1 then
      if (rl + loss i) / (step : K) < lc ∨
          ac < accUpd task ra (acc i) / (step : K) then i + 1
      else trainAux loss acc step lc ac task n (i + 1) 0 0
    else trainAux loss acc step lc ac task n (i + 1) (rl + loss i)
      (accUpd task ra (acc i))

/-- Number of gradient steps the notebook's training loop executes for an
iteration budget `iters` (`for i in range(iters)` with the early-stop break). -/
def trainSteps (loss acc : ℕ → K) (iters step : ℕ) (lc ac : K)
    (task : TaskType) : ℕ :=
  trainAux loss acc step lc ac task iters 0 0 0

/-- Total batch loss over the `b`-th block of `step` iterations. -/
def blockLoss (loss : ℕ → K) (step b : ℕ) : K :=
  ∑ j in Finset.range step, loss (b * step + j)

/-- Value of `running_acc` at the end of the `b`-th block: the accumulated
batch accuracy for go-nogo and dmts, and 0 for mante. -/
def blockAcc (acc : ℕ → K) (task : TaskType) (step b : ℕ) : K :=
  if useAcc task then ∑ j in Finset.range step, acc (b * step + j) else 0

/-- The stopping criterion evaluated at the check ending block `b`: running
average loss below `loss_crit`, or running average accuracy above `acc_crit`. -/
def stopCrit (loss acc : ℕ → K) (step : ℕ) (lc ac : K) (task : TaskType)
    (b : ℕ) : Prop :=
  blockLoss loss step b / (step : K) < lc ∨
    ac < blockAcc acc task step b / (step : K)

/-- Shifting a sum of `d` consecutive values by one. -/
theorem sum_shift (g : ℕ → K) (i d : ℕ) :
    g i + ∑ j in Finset.range d, g (i + 1 + j) =
      ∑ j in Finset.range (d + 1), g (i + j) := by
  rw [Finset.sum_range_succ']
  have h1 : (∑ j in Finset.range d, g (i + 1 + j)) =
      ∑ j in Finset.range d, g (i + (j + 1)) :=
    Finset.sum_congr rfl fun j _ => by rw [show i + 1 + j = i + (j + 1) from by omega]
  rw [h1, Nat.add_zero]
  exact add_comm _ _

/-- Incrementing the iteration index increments its position in the block. -/
theorem mod_succ_of_lt {i k step : ℕ} (hk : i % step = k) (h : k + 1 < step) :
    (i + 1) % step = k + 1 := by
  rw [Nat.add_mod, hk, Nat.mod_eq_of_lt (by omega : 1 < step),
    Nat.mod_eq_of_lt h]

/-- The loop executes at most its remaining budget. -/
theorem trainAux_le (loss acc : ℕ → K) (step : ℕ) (lc ac : K)
    (task : TaskType) :
    ∀ n i rl ra, trainAux loss acc step lc ac task n i rl ra ≤ i + n := by
  intro n
  induction n with
  | zero => intro i rl ra; simp [trainAux]
  | succ n ih =>
    intro i rl ra
    simp only [trainAux]
    split
    · split
      · omega
      · exact (ih (i + 1) 0 0).trans (by omega)
    · exact (ih (i + 1) _ _).trans (by omega)

/-- If the remaining budget runs out before the next block boundary, the loop
runs to the end of the budget with no further check. -/
theorem trainAux_runout (loss acc : ℕ → K) (step : ℕ) (lc ac : K)
    (task : TaskType) :
    ∀ n k i rl ra, i % step = k → k + n < step →
      trainAux loss acc step lc ac task n i rl ra = i + n := by
  intro n
  induction n with
  | zero => intro k i rl ra _ _; simp [trainAux]
  | succ n ih =>
    intro k i rl ra hk hlt
    simp only [trainAux, hk]
    rw [if_neg (by omega : ¬k = step - 1)]
    rw [ih (k + 1) (i + 1) _ _ (mod_succ_of_lt hk (by omega)) (by omega)]
    omega

/-- Completing the current block when the stopping criterion (expressed with
the running sums accumulated so far) holds at its end: the loop breaks right
after the check, having executed through the end of the block. -/
theorem trainAux_block_stop (loss acc : ℕ → K) (step : ℕ) (lc ac : K)
    (task : TaskType) :
    ∀ d, 1 ≤ d → ∀ n k i rl ra, d ≤ n → i % step = k → k + d = step →
      ((rl + ∑ j in Finset.range d, loss (i + j)) / (step : K) < lc ∨
        ac < (if useAcc task then ra + ∑ j in Finset.range d, acc (i + j)
          else 0) / (step : K)) →
      trainAux loss acc step lc ac task n i rl ra = i + d := by
  intro d
  induction d with
  | zero => intro h; exact absurd h (by omega)
  | succ d ih =>
    intro _ n k i rl ra hdn hk hkd hstop
    obtain ⟨m, rfl⟩ : ∃ m, n = m + 1 := ⟨n - 1, by omega⟩
    by_cases hd0 : d = 0
    · subst hd0
      have hcheck : i % step = step - 1 := by rw [hk]; omega
      have hstop2 : (rl + loss i) / (step : K) < lc ∨
          ac < accUpd task ra (acc i) / (step : K) := by
        unfold accUpd
        simp only [zero_add, Finset.sum_range_one, add_zero] at hstop
        exact hstop
      simp only [trainAux]
      rw [if_pos hcheck, if_pos hstop2]
    · have hne : ¬i % step = step - 1 := by rw [hk]; omega
      simp only [trainAux]
      rw [if_neg hne]
      have hstop' : ((rl + loss i) +
            ∑ j in Finset.range d, loss (i + 1 + j)) / (step : K) < lc ∨
          ac < (if useAcc task then accUpd task ra (acc i) +
            ∑ j in Finset.range d, acc (i + 1 + j) else 0) / (step : K) := by
        have hl : (rl + loss i) + ∑ j in Finset.range d, loss (i + 1 + j) =
            rl + ∑ j in Finset.range (d + 1), loss (i + j) := by
          rw [add_assoc, sum_shift]
        have ha : (if useAcc task then accUpd task ra (acc i) +
              ∑ j in Finset.range d, acc (i + 1 + j) else 0) =
            (if useAcc task then ra + ∑ j in Finset.range (d + 1), acc (i + j)
              else 0) := by
          unfold accUpd
          cases huse : useAcc task
          · simp
          · simp only [if_true]
            rw [add_assoc, sum_shift]
        rw [hl, ha]
        exact hstop
      rw [ih (by omega) m (k + 1) (i + 1) (rl + loss i)
        (accUpd task ra (acc i)) (by omega) (mod_succ_of_lt hk (by omega))
        (by omega) hstop']
      omega

/-- Completing the current block when the stopping criterion fails at its end:
the loop continues at the next block boundary with running sums reset. -/
theorem trainAux_block_cont (loss acc : ℕ → K) (step : ℕ) (lc ac : K)
    (task : TaskType) :
    ∀ d, 1 ≤ d → ∀ n k i rl ra, d ≤ n → i % step = k → k + d = step →
      ¬((rl + ∑ j in Finset.range d, loss (i + j)) / (step : K) < lc ∨
        ac < (if useAcc task then ra + ∑ j in Finset.range d, acc (i + j)
          else 0) / (step : K)) →
      trainAux loss acc step lc ac task n i rl ra =
        trainAux loss acc step lc ac task (n - d) (i + d) 0 0 := by
  intro d
  induction d with
  | zero => intro h; exact absurd h (by omega)
  | succ d ih =>
    intro _ n k i rl ra hdn hk hkd hstop
    obtain ⟨m, rfl⟩ : ∃ m, n = m + 1 := ⟨n - 1, by omega⟩
    by_cases hd0 : d = 0
    · subst hd0
      have hcheck : i % step = step - 1 := by rw [hk]; omega
      have hstop2 : ¬((rl + loss i) / (step : K) < lc ∨
          ac < accUpd task ra (acc i) / (step : K)) := by
        unfold accUpd
        simp only [zero_add, Finset.sum_range_one, add_zero] at hstop
        exact hstop
      simp only [trainAux]
      rw [if_pos hcheck, if_neg hstop2]
      norm_num
    · have hne : ¬i % step = step - 1 := by rw [hk]; omega
      simp only [trainAux]
      rw [if_neg hne]
      have hstop' : ¬(((rl + loss i) +
            ∑ j in Finset.range d, loss (i + 1 + j)) / (step : K) < lc ∨
          ac < (if useAcc task then accUpd task ra (acc i) +
            ∑ j in Finset.range d, acc (i + 1 + j) else 0) / (step : K)) := by
        have hl : (rl + loss i) + ∑ j in Finset.range d, loss (i + 1 + j) =
            rl + ∑ j in Finset.range (d + 1), loss (i + j) := by
          rw [add_assoc, sum_shift]
        have ha : (if useAcc task then accUpd task ra (acc i) +
              ∑ j in Finset.range d, acc (i + 1 + j) else 0) =
            (if useAcc task then ra + ∑ j in Finset.range (d + 1), acc (i + j)
              else 0) := by
          unfold accUpd
          cases huse : useAcc task
          · simp
          · simp only [if_true]
            rw [add_assoc, sum_shift]
        rw [hl, ha]
        exact hstop
      rw [ih (by omega) m (k + 1) (i + 1) (rl + loss i)
        (accUpd task ra (acc i)) (by omega) (mod_succ_of_lt hk (by omega))
        (by omega) hstop']
      have h1 : m - d = m + 1 - (d + 1) := by omega
      have h2 : i + 1 + d = i + (d + 1) := by omega
      rw [h1, h2]

/-- Characterization of the loop from a block boundary: it either exhausts its
budget, or breaks at the end of the first block whose stopping criterion
holds. -/
theorem trainAux_blocks (loss acc : ℕ → K) (step : ℕ) (lc ac : K)
    (task : TaskType) (hstep : 0 < step) :
    ∀ n b, trainAux loss acc step lc ac task n (b * step) 0 0 = b * step + n ∨
      ∃ c, b ≤ c ∧ (c + 1) * step ≤ b * step + n ∧
        trainAux loss acc step lc ac task n (b * step) 0 0 = (c + 1) * step ∧
        stopCrit loss acc step lc ac task c := by
  intro n
  induction n using Nat.strong_induction_on with
  | _ n ih =>
    intro b
    by_cases hn : n < step
    · exact Or.inl (trainAux_runout loss acc step lc ac task n 0 (b * step) 0 0
        (Nat.mul_mod_left b step) (by omega))
    · have hmul : (b + 1) * step = b * step + step := Nat.succ_mul b step
      by_cases hstop : stopCrit loss acc step lc ac task b
      · refine Or.inr ⟨b, le_refl b, by omega, ?_, hstop⟩
        rw [trainAux_block_stop loss acc step lc ac task step hstep n 0
          (b * step) 0 0 (by omega) (Nat.mul_mod_left b step) (by omega)
          (by simpa only [zero_add] using hstop)]
        omega
      · rw [trainAux_block_cont loss acc step lc ac task step hstep n 0
          (b * step) 0 0 (by omega) (Nat.mul_mod_left b step) (by omega)
          (by simpa only [zero_add] using hstop)]
        rw [show b * step + step = (b + 1) * step from hmul.symm]
        rcases ih (n - step) (by omega) (b + 1) with h | ⟨c, hc1, hc2, hc3, hc4⟩
        · rw [h]
          left
          omega
        · refine Or.inr ⟨c, by omega, by omega, hc3, hc4⟩

/-- If no block inside the budget meets the stopping criterion, the loop runs
its full budget. -/
theorem trainAux_blocks_none (loss acc : ℕ → K) (step : ℕ) (lc ac : K)
    (task : TaskType) (hstep : 0 < step) :
    ∀ n b, (∀ c, b ≤ c → (c + 1) * step ≤ b * step + n →
        ¬stopCrit loss acc step lc ac task c) →
      trainAux loss acc step lc ac task n (b * step) 0 0 = b * step + n := by
  intro n
  induction n using Nat.strong_induction_on with
  | _ n ih =>
    intro b hnone
    by_cases hn : n < step
    · exact trainAux_runout loss acc step lc ac task n 0 (b * step) 0 0
        (Nat.mul_mod_left b step) (by omega)
    · have hmul : (b + 1) * step = b * step + step := Nat.succ_mul b step
      have hstop : ¬stopCrit loss acc step lc ac task b :=
        hnone b (le_refl b) (by omega)
      rw [trainAux_block_cont loss acc step lc ac task step hstep n 0
        (b * step) 0 0 (by omega) (Nat.mul_mod_left b step) (by omega)
        (by simpa only [zero_add] using hstop)]
      rw [show b * step + step = (b + 1) * step from hmul.symm]
      rw [ih (n - step) (by omega) (b + 1) ?_]
      · omega
      · intro c hc hcle
        have hmul' : (b + 2) * step = b * step + 2 * step := by ring
        refine hnone c (by omega) ?_
        have hcm : (c + 1) * step ≤ (b + 1) * step + (n - step) := hcle
        omega

/-- Claim C9: the training loop always terminates within the configured
iteration budget `iters`, and it stops earlier exactly when a per-block
stopping criterion is met — the running average loss over the block falls
below `loss_crit` or the running average accuracy exceeds `acc_crit`; there is
no retry or recovery path (the step count is a total function of the
sequences). -/
theorem training_budget_and_stopping (loss acc : ℕ → K) (iters step : ℕ)
    (lc ac : K) (task : TaskType) (hstep : 0 < step) :
    trainSteps loss acc iters step lc ac task ≤ iters ∧
    (trainSteps loss acc iters step lc ac task < iters →
      ∃ b, trainSteps loss acc iters step lc ac task = (b + 1) * step ∧
        stopCrit loss acc step lc ac task b) ∧
    ((∀ b, (b + 1) * step ≤ iters → ¬stopCrit loss acc step lc ac task b) →
      trainSteps loss acc iters step lc ac task = iters) := by
  unfold trainSteps
  refine ⟨by simpa using trainAux_le loss acc step lc ac task iters 0 0 0,
    fun hlt => ?_, fun hnone => ?_⟩
  · rcases trainAux_blocks loss acc step lc ac task hstep iters 0 with h |
      ⟨c, _, _, h3, h4⟩
    · rw [Nat.zero_mul, Nat.zero_add] at h
      omega
    · rw [Nat.zero_mul] at h3
      exact ⟨c, h3, h4⟩
  · have := trainAux_blocks_none loss acc step lc ac task hstep iters 0
      (fun c _ hle => hnone c (by simpa using hle))
    simpa using this

/-- Witness for claim C9 at concrete sequences: with zero loss, budget 2 and
block size 1, the loop executes at most 2 steps (it actually breaks at the
first check). -/
theorem training_budget_and_stopping_witness :
    trainSteps (fun _ => (0 : ℚ)) (fun _ => 0) 2 1 1 1 TaskType.go_nogo ≤ 2 :=
  (training_budget_and_stopping (fun _ => (0 : ℚ)) (fun _ => 0) 2 1 1 1
    TaskType.go_nogo (by decide)).1

/-- Claim C10: for the mante task the loop's `running_acc` is reset to zero on
every iteration, so with `acc_crit > 0` the accuracy criterion never fires: an
early stop of a mante run can only come from the loss criterion (otherwise the
loop exhausts its iteration budget). -/
theorem mante_acc_never_stops (loss acc : ℕ → K) (iters step : ℕ)
    (lc ac : K) (hstep : 0 < step) (hac : 0 < ac) :
    (∀ ra a : K, accUpd TaskType.mante ra a = 0) ∧
    (trainSteps loss acc iters step lc ac TaskType.mante < iters →
      ∃ b, trainSteps loss acc iters step lc ac TaskType.mante =
          (b + 1) * step ∧
        blockLoss loss step b / (step : K) < lc) := by
  refine ⟨fun ra a => rfl, fun hlt => ?_⟩
  unfold trainSteps at hlt ⊢
  rcases trainAux_blocks loss acc step lc ac TaskType.mante hstep iters 0 with
    h | ⟨c, _, _, h3, h4⟩
  · rw [Nat.zero_mul, Nat.zero_add] at h
    omega
  · rw [Nat.zero_mul] at h3
    refine ⟨c, h3, ?_⟩
    rcases h4 with h4 | h4
    · exact h4
    · exfalso
      have hz : blockAcc acc TaskType.mante step c = 0 := by
        simp [blockAcc, useAcc]
      rw [hz, zero_div] at h4
      exact absurd h4 (not_lt.mpr (le_of_lt hac))

/-- Witness for claim C10: `running_acc` is held at zero for a mante
iteration at concrete values. -/
theorem mante_acc_never_stops_witness :
    accUpd TaskType.mante (3 : ℚ) 4 = 0 :=
  (mante_acc_never_stops (fun _ => (0 : ℚ)) (fun _ => 0) 2 1 1 1 (by decide)
    (by norm_num)).1 3 4

end CtRnnTutorial
